import Mathlib

/-!
Verification of the streaming tokenizer of `src/libs/mini-lexer.c`
(`__next_token_lazy` and its helpers) via a shallow embedding.

Modelling conventions:
* bytes are `Nat` (the C code reads them as `unsigned char`; where the C
  compares through plain (signed) `char`, the embedding converts with
  `scharVal`, which reproduces two's-complement `signed char` promotion);
* C strings in the configuration tables are `List Nat` of their non-NUL
  bytes, so `strlen` is `List.length` and `strncmp`-equality over a region
  that cannot contain NUL on one side is a raw slice comparison (`sliceEq`);
* the caller-owned token buffer `Milexer_Token.cstr` is a raw byte list;
  writes use `List.set` / `writeBytes` at explicit indices, exactly where
  the C writes, and the C-string value an emitted token denotes (what
  `printf ("%s", t.cstr)` shows) is `cStrOf`, the bytes before the first NUL;
* `TOKEN_ALLOC (n)` yields a buffer with `len = n`; the code writes at
  indices up to `n + 1` (`res->cstr[res->__idx + 1]` in the chunk branch with
  `__idx = n`), so model buffers carry `n + 2` slots; `malloc`-fresh bytes are
  modelled as `0` (they are never read before being written, except through
  `cStrOf` which stops at the terminator the code has already written);
* out-of-range table accesses that the C leaves unchecked
  (`__get_last_exp`, `__get_last_punc`) are modelled with `getD` defaults.
-/

namespace Mlex

/-- Status codes of `enum milexer_state_t`. -/
inductive MlStatus where
  | NEXT_MATCH
  | NEXT_CHUNK
  | NEXT_ZTERM
  | NEXT_NEED_LOAD
  | NEXT_END
  | NEXT_ERR
deriving DecidableEq, Repr

/-- Internal buffer states of `enum __buffer_state_t`. -/
inductive BufState where
  | SYN_DUMMY
  | SYN_ESCAPE
  | SYN_MIDDLE
  | SYN_PUNC__
  | SYN_NO_DUMMY
  | SYN_NO_DUMMY__
  | SYN_CHUNK
  | SYN_DONE
deriving DecidableEq, Repr

/-- Token types of `enum milexer_token_t`. -/
inductive TkType where
  | TK_NOT_SET
  | TK_PUNCS
  | TK_KEYWORD
  | TK_EXPRESSION
  | TK_BCOMMENT
  | TK_ACOMMENT
deriving DecidableEq, Repr

open MlStatus BufState TkType

/-- Parsing flag `PFLAG_INEXP = __flag__ (0)`. -/
def PFLAG_INEXP : Nat := 1

/-- Parsing flag `PFLAG_IGSPACE = __flag__ (1)`. -/
def PFLAG_IGSPACE : Nat := 2

/-- Parsing flag `PFLAG_ALLDELIMS = __flag__ (1)` (the source assigns bit 1,
the same bit as `PFLAG_IGSPACE`). -/
def PFLAG_ALLDELIMS : Nat := 2

/-- Configuration tables of `struct Milexer_t` that the lazy tokenizer reads
(escape/comment tables are unimplemented in the source and never read). -/
structure Milexer where
  puncs : List (List Nat)
  keywords : List (List Nat)
  expression : List (List Nat × List Nat)
  delim_ranges : List (List Nat)
deriving Repr

/-- The cursor `Milexer_Slice` (its `buffer`/`cap` are passed per call as the
chunk `input`, with `cap = input.length` as set by `SET_SLICE`). -/
structure Slice where
  eof_lazy : Bool
  state : BufState
  prev_state : BufState
  idx : Nat
  last_exp_idx : Int
  last_punc_idx : Int
deriving DecidableEq, Repr

/-- The `Milexer_Token`: classification, table id, raw caller-owned buffer,
its capacity `len`, and the write index `__idx`. -/
structure Token where
  type : TkType
  id : Int
  cstr : List Nat
  len : Nat
  idx : Nat
deriving DecidableEq, Repr

/-- Zero-initialized slice (`Milexer_Slice src = {0}`). -/
def initSlice : Slice :=
  { eof_lazy := false, state := SYN_DUMMY, prev_state := SYN_DUMMY,
    idx := 0, last_exp_idx := 0, last_punc_idx := 0 }

/-- `TOKEN_ALLOC (n)`: capacity `n`, zeroed metadata, fresh buffer. -/
def initToken (n : Nat) : Token :=
  { type := TK_NOT_SET, id := 0, cstr := List.replicate (n + 2) 0,
    len := n, idx := 0 }

/-- Value of a byte read back through plain (signed) `char`. -/
def scharVal (b : Nat) : Int :=
  if b < 128 then (b : Int) else (b : Int) - 256

/-- The C-string value a buffer denotes: bytes before the first NUL. -/
def cStrOf (buf : List Nat) : List Nat :=
  buf.takeWhile (fun b => b != 0)

/-- `strncmp (s, buf + off, s.length) == 0` for a NUL-free `s`. -/
def sliceEq (buf : List Nat) (off : Nat) (s : List Nat) : Bool :=
  (buf.drop off).take s.length == s

/-- Overwrite `buf` starting at `off` with the bytes of `src` (`mempcpy`). -/
def writeBytes (buf : List Nat) (off : Nat) (src : List Nat) : List Nat :=
  match src with
  | [] => buf
  | a :: rest => writeBytes (buf.set off a) (off + 1) rest

/-- Offset of the first occurrence of `needle` in `hay` (`strstr`); `some 0`
on an empty needle, like `strstr` returning the haystack itself. -/
def findSub (hay needle : List Nat) : Option Nat :=
  match hay with
  | [] => if needle = [] then some 0 else none
  | _ :: rest =>
      if hay.take needle.length = needle then some 0
      else (findSub rest needle).map (· + 1)

/-- ST_STATE: remember the current state in `prev_state`, switch to `ns`. -/
def stState (s : Slice) (ns : BufState) : Slice :=
  { s with prev_state := s.state, state := ns }

/-- LD_STATE: restore `state` from `prev_state`. -/
def ldState (s : Slice) : Slice :=
  { s with state := s.prev_state }

/-- Embedding of `__handle_delims`: returns the consumed byte when it is a
delimiter (note a NUL delimiter returns 0, which the caller's truthiness
test cannot distinguish from "no delimiter"), else 0.  Range entries are
compared through signed `char` exactly as the C does. -/
def handleDelims (ml : Milexer) (state : BufState) (p : Nat) (flags : Nat) : Nat :=
  match state with
  | SYN_ESCAPE | SYN_NO_DUMMY | SYN_NO_DUMMY__ => 0
  | _ =>
    if ml.delim_ranges.length = 0 ∨ flags &&& PFLAG_ALLDELIMS ≠ 0 then
      if p < 0x20 ∨ (p = 0x20 ∧ flags &&& PFLAG_IGSPACE = 0) then p else 0
    else
      rangeScan ml.delim_ranges p
where
  /-- The `for` loop over `delim_ranges`; `__p[1]` of a 1-byte entry is the
  string's NUL terminator, modelled by `getD _ 0`. -/
  rangeScan : List (List Nat) → Nat → Nat
  | [], _ => 0
  | e :: rest, p =>
      let c0 := e.getD 0 0
      let c1 := e.getD 1 0
      if c1 ≠ 0 then
        if scharVal c0 ≤ (p : Int) ∧ (p : Int) ≤ scharVal c1 then p
        else rangeScan rest p
      else
        if (p : Int) = scharVal c0 then p else rangeScan rest p

/-- The scanning loop of `__handle_puncs`: fold over the punctuation table
keeping the best `(index, length)`; the C updates on `len >= longest`, so an
equal-length tie moves the winner to the later index. -/
def puncScanAux (buf : List Nat) (tidx : Nat) :
    List (List Nat) → Nat → Option Nat × Nat → Option Nat × Nat
  | [], _, acc => acc
  | pc :: rest, i, (bi, bl) =>
      let acc :=
        if tidx < pc.length then (bi, bl)
        else if sliceEq buf (tidx - pc.length) pc then
          if bl ≤ pc.length then (some i, pc.length) else (bi, bl)
        else (bi, bl)
      puncScanAux buf tidx rest (i + 1) acc

/-- The longest-suffix punctuation match of `__handle_puncs` over the whole
table: `(some winner, its length)` or `(none, 0)`. -/
def puncScan (puncs : List (List Nat)) (buf : List Nat) (tidx : Nat) :
    Option Nat × Nat :=
  puncScanAux buf tidx puncs 0 (none, 0)

/-- Embedding of `__handle_puncs` including its state guard. -/
def handlePuncs (ml : Milexer) (state : BufState) (buf : List Nat) (tidx : Nat) :
    Option Nat × Nat :=
  match state with
  | SYN_ESCAPE | SYN_NO_DUMMY | SYN_NO_DUMMY__ => (none, 0)
  | _ => puncScan ml.puncs buf tidx

/-- The begin-marker scan of `__handle_expression` (default case): first
table entry whose begin marker occurs in the accumulated C-string wins; a
match at offset 0 while in `SYN_MIDDLE` aborts the scan with no match. -/
def expScan (st : BufState) (hay : List Nat) :
    List (List Nat × List Nat) → Nat → Option (Nat × Nat)
  | [], _ => none
  | e :: rest, i =>
      match findSub hay e.1 with
      | some off =>
          if off = 0 ∧ st = SYN_MIDDLE then none else some (i, off)
      | none => expScan st hay rest (i + 1)

/-- Embedding of `__handle_expression`.  Returns the match offset (the C
returns a pointer into `res->cstr`; `none` is `NULL`), together with the
buffer (the function writes the terminator `res->cstr[res->__idx] = 0`
first), the possibly updated `src->__last_exp_idx`, and `res->id`. -/
def handleExpression (ml : Milexer) (state : BufState) (lei : Int)
    (buf : List Nat) (tidx : Nat) (tid : Int) :
    Option Nat × List Nat × Int × Int :=
  let buf := buf.set tidx 0
  match state with
  | SYN_ESCAPE => (some tidx, buf, lei, tid)
  | SYN_NO_DUMMY | SYN_NO_DUMMY__ =>
      let e := ml.expression.getD lei.toNat ([], [])
      if tidx < e.2.length then (none, buf, lei, tid)
      else if sliceEq buf (tidx - e.2.length) e.2 then
        (some (tidx - e.2.length), buf, lei, lei)
      else (none, buf, lei, tid)
  | _ =>
      match expScan state (cStrOf buf) ml.expression 0 with
      | some (i, off) => (some off, buf, (i : Int), tid)
      | none => (none, buf, lei, tid)

/-- Embedding of `__handle_token_id`: resolve a keyword token's table id by
`strcmp` against the buffer's C-string value; `-1` when absent; untouched
when the keyword table is empty or the token is not a keyword. -/
def applyTokenId (ml : Milexer) (t : Token) : Token :=
  if t.type ≠ TK_KEYWORD then t
  else if ml.keywords.length = 0 then t
  else
    match kwFind ml.keywords 0 (cStrOf t.cstr) with
    | some i => { t with id := i }
    | none => { t with id := -1 }
where
  kwFind : List (List Nat) → Nat → List Nat → Option Nat
  | [], _, _ => none
  | k :: rest, i, v => if k = v then some i else kwFind rest (i + 1) v

/-- Outcome of one iteration of the consuming loop of `__next_token_lazy`:
either a `return` with a status, or fall through to the next byte. -/
inductive StepRes where
  | emit (st : MlStatus) (s : Slice) (t : Token) : StepRes
  | cont (s : Slice) (t : Token) : StepRes
deriving DecidableEq, Repr

/-- The tail of each loop iteration of `__next_token_lazy`: the chunk
(buffer-full) detection and the transparent `SYN_CHUNK` restore. -/
def chunkTail (s : Slice) (t : Token) : StepRes :=
  if t.idx = t.len then
    let t :=
      if t.type = TK_NOT_SET ∨ s.state = SYN_DUMMY ∨ s.state = SYN_DONE then
        { t with id := -1, type := TK_KEYWORD }
      else t
    .emit NEXT_CHUNK (stState s SYN_CHUNK)
      { t with cstr := t.cstr.set (t.idx + 1) 0, idx := 0 }
  else
    let s := if s.state = SYN_CHUNK then ldState s else s
    .cont s t

/-- One iteration of the consuming loop of `__next_token_lazy` for the byte
`p`: copy the byte, then the delimiter check, the expression / escape /
punctuation chain, and the chunk tail, with the C's early returns. -/
def stepByte (ml : Milexer) (flags : Nat) (p : Nat) (s : Slice) (t : Token) :
    StepRes :=
  let s := { s with idx := s.idx + 1 }
  let t := { t with cstr := t.cstr.set t.idx p, idx := t.idx + 1 }
  if handleDelims ml s.state p flags ≠ 0 ∧ t.idx > 1 then
    let t := applyTokenId ml
      { t with type := TK_KEYWORD, cstr := t.cstr.set (t.idx - 1) 0, idx := 0 }
    .emit (if p = 0 then NEXT_ZTERM else NEXT_MATCH) (stState s SYN_DUMMY) t
  else
    let t := if handleDelims ml s.state p flags ≠ 0 then { t with idx := 0 } else t
    match handleExpression ml s.state s.last_exp_idx t.cstr t.idx t.id with
    | (some off, buf, lei, tid) =>
        let t := { t with cstr := buf, id := tid, type := TK_EXPRESSION }
        let s := { s with last_exp_idx := lei }
        if s.state = SYN_ESCAPE then
          chunkTail (ldState s) t
        else if s.state = SYN_NO_DUMMY then
          let buf := if flags &&& PFLAG_INEXP ≠ 0 then t.cstr.set off 0 else t.cstr
          .emit NEXT_MATCH (stState s SYN_DONE)
            { t with cstr := buf.set t.idx 0, idx := 0 }
        else
          if off = 0 then
            let t := if flags &&& PFLAG_INEXP ≠ 0 then { t with idx := 0 } else t
            chunkTail (stState s SYN_NO_DUMMY) t
          else
            .emit NEXT_MATCH (stState s SYN_NO_DUMMY__)
              (applyTokenId ml
                { t with cstr := t.cstr.set off 0, idx := 0, type := TK_KEYWORD })
    | (none, buf, lei, tid) =>
        let t := { t with cstr := buf, id := tid }
        let s := { s with last_exp_idx := lei }
        if p = 0x5C then
          chunkTail (stState s SYN_ESCAPE) t
        else
          match handlePuncs ml s.state t.cstr t.idx with
          | (some bi, bl) =>
              let s := { s with last_punc_idx := (bi : Int) }
              let t := { t with id := (bi : Int) }
              if bl = t.idx then
                .emit NEXT_MATCH (stState s SYN_DUMMY)
                  { t with type := TK_PUNCS, cstr := t.cstr.set t.idx 0, idx := 0 }
              else
                .emit NEXT_MATCH (stState s SYN_PUNC__)
                  (applyTokenId ml
                    { t with cstr := t.cstr.set (t.idx - bl) 0, idx := 0,
                             type := TK_KEYWORD })
          | (none, _) => chunkTail s t

/-- The code after the consuming loop: at end of input either flush the
leftover partial token (`eof_lazy`) or request the next chunk. -/
def eofTail (ml : Milexer) (s : Slice) (t : Token) : MlStatus × Slice × Token :=
  if s.eof_lazy then
    if t.idx > 1 then
      if t.type = TK_NOT_SET then
        (NEXT_END, s, applyTokenId ml { t with type := TK_KEYWORD })
      else (NEXT_END, s, t)
    else if t.idx = 1 ∧ scharVal (t.cstr.getD 0 0) > 32 then
      (NEXT_END, s, { t with type := TK_KEYWORD })
    else (NEXT_END, s, { t with type := TK_NOT_SET })
  else (NEXT_NEED_LOAD, { s with idx := 0 }, t)

/-- The consuming loop of `__next_token_lazy` over the remaining bytes of
the current chunk (the C iterates `src->idx` up to `src->cap`). -/
def tokLoop (ml : Milexer) (flags : Nat) :
    List Nat → Slice → Token → MlStatus × Slice × Token
  | [], s, t => eofTail ml s t
  | p :: rest, s, t =>
      match stepByte ml flags p s t with
      | .emit st s t => (st, s, t)
      | .cont s t => tokLoop ml flags rest s t

/-- Embedding of `__next_token_lazy`.  `input` is the chunk `src->buffer`
with `src->cap = input.length`; `cstrNull` and `aliased` stand for the
pointer conditions `res->cstr == NULL` and `res->cstr == src->buffer` of the
fatal-misuse check. -/
def next_token_lazy (ml : Milexer) (flags : Nat) (cstrNull aliased : Bool)
    (input : List Nat) (s : Slice) (t : Token) : MlStatus × Slice × Token :=
  if cstrNull = true ∨ t.len = 0 ∨ aliased = true then (NEXT_ERR, s, t)
  else if s.state = SYN_NO_DUMMY__ then
    let t :=
      if flags &&& PFLAG_INEXP = 0 ∧ s.last_exp_idx ≠ -1 then
        let le := (ml.expression.getD s.last_exp_idx.toNat ([], [])).1
        { t with type := TK_EXPRESSION, cstr := writeBytes t.cstr 0 le,
                 idx := t.idx + le.length }
      else t
    mainBody ml flags input { s with state := SYN_NO_DUMMY } t
  else if s.state = SYN_PUNC__ then
    let lp := ml.puncs.getD s.last_punc_idx.toNat []
    (NEXT_MATCH, ldState s,
      { t with cstr := writeBytes t.cstr 0 (lp ++ [0]),
               type := TK_PUNCS, id := s.last_punc_idx })
  else mainBody ml flags input s t
where
  /-- The part after the recover-state handling: the `src->idx > src->cap`
  check, the `res->type` reset, and the consuming loop. -/
  mainBody (ml : Milexer) (flags : Nat) (input : List Nat) (s : Slice)
      (t : Token) : MlStatus × Slice × Token :=
    if s.idx > input.length then
      if s.eof_lazy then (NEXT_END, s, t)
      else (NEXT_NEED_LOAD, { s with idx := 0 }, t)
    else
      tokLoop ml flags (input.drop s.idx) s { t with type := TK_NOT_SET }

/-- One record of the observable token stream: the returned status and the
token's type, table id, and C-string content as the caller reads them. -/
def recOf (st : MlStatus) (t : Token) : MlStatus × TkType × Int × List Nat :=
  (st, t.type, t.id, cStrOf t.cstr)

/-- Drive `next_token_lazy` like the example reader: on `NEXT_NEED_LOAD`
install the next chunk (`SET_SLICE`), and once the chunks run out flag end
of input (`END_SLICE`); record every token-bearing return, stopping at
`NEXT_END` / `NEXT_ERR`.  `fuel` bounds the number of calls. -/
def runStream (ml : Milexer) (flags : Nat) :
    Nat → List Nat → List (List Nat) → Slice → Token →
    List (MlStatus × TkType × Int × List Nat)
  | 0, _, _, _, _ => []
  | fuel + 1, input, chunks, s, t =>
      match next_token_lazy ml flags false false input s t with
      | (NEXT_NEED_LOAD, s, t) =>
          match chunks with
          | c :: cs => runStream ml flags fuel c cs s t
          | [] =>
              if s.eof_lazy then []
              else runStream ml flags fuel [] [] { s with eof_lazy := true } t
      | (NEXT_END, _, t) => [recOf NEXT_END t]
      | (NEXT_ERR, _, _) => []
      | (st, s, t) => recOf st t :: runStream ml flags fuel input chunks s t

/-- Tokenize `chunks` delivered one `NEXT_NEED_LOAD` at a time, from a fresh
slice and a fresh token buffer of capacity `n`. -/
def runChunks (ml : Milexer) (flags : Nat) (n : Nat)
    (chunks : List (List Nat)) : List (MlStatus × TkType × Int × List Nat) :=
  runStream ml flags (2 * (chunks.map List.length).sum + 2 * chunks.length + 8)
    [] chunks initSlice (initToken n)

/-! ### Concrete configurations used by the claims -/

/-- Parenthesis expression only (`Exp` entry `{"(", ")"}`), no other tables. -/
def cfgParen : Milexer :=
  { puncs := [], keywords := [], expression := [([40], [41])], delim_ranges := [] }

/-- The documented scenario: punctuations `+`, `==`, `=`; keywords `if`,
`else`; the double-quote expression pair. -/
def cfgScenario : Milexer :=
  { puncs := [[43], [61, 61], [61]],
    keywords := [[105, 102], [101, 108, 115, 101]],
    expression := [([34], [34])], delim_ranges := [] }

/-- Two identical punctuation entries `=` (a configuration with an exact
equal-length tie). -/
def cfgDupEq : Milexer :=
  { puncs := [[61], [61]], keywords := [], expression := [], delim_ranges := [] }

/-- A single custom delimiter range holding only the byte `A` (0x41). -/
def cfgRangeA : Milexer :=
  { puncs := [], keywords := [], expression := [], delim_ranges := [[65]] }

/-- Keywords `x` and `abc`. -/
def cfgKwABC : Milexer :=
  { puncs := [], keywords := [[120], [97, 98, 99]], expression := [],
    delim_ranges := [] }

/-- Keywords `b` and `a`, so that the value `a` resolves to table index 1. -/
def cfgKwBA : Milexer :=
  { puncs := [], keywords := [[98], [97]], expression := [], delim_ranges := [] }

/-- One punctuation `" ="` (space, equals) of length two. -/
def cfgSpacePunc : Milexer :=
  { puncs := [[32, 61]], keywords := [], expression := [], delim_ranges := [] }

/-- Keywords `z` and `a\b` (the latter containing a backslash, value
resolving to table index 1). -/
def cfgEscKw : Milexer :=
  { puncs := [], keywords := [[122], [97, 92, 98]], expression := [],
    delim_ranges := [] }

/-- Square-bracket expression pair (`{"[", "]"}`). -/
def cfgBracket : Milexer :=
  { puncs := [], keywords := [], expression := [([91], [93])], delim_ranges := [] }

/-- Configuration whose only table entry is the single punctuation `P`. -/
def singlePuncCfg (P : List Nat) : Milexer :=
  { puncs := [P], keywords := [], expression := [], delim_ranges := [] }

/-! ### Claim theorems -/

/-- Claim C1 (refuted, code bug): chunk invariance fails.  With the
parenthesis expression, token capacity 4 and input `(abcd)`, delivering the
input as one chunk emits the overflow fragment `(abc` typed
`TK_EXPRESSION` (id 0), but delivering it as `(a` + `bcd)` emits the same
fragment typed `TK_KEYWORD` with id `-1`: the `res->type = TK_NOT_SET`
reset at the top of every call erases the open-expression type across the
`NEXT_NEED_LOAD` boundary, so the emitted streams differ. -/
theorem chunk_invariance_fails :
    runChunks cfgParen 0 4 [[40, 97, 98, 99, 100, 41]] =
      [(NEXT_CHUNK, TK_EXPRESSION, 0, [40, 97, 98, 99]),
       (NEXT_MATCH, TK_EXPRESSION, 0, [100, 41]),
       (NEXT_END, TK_NOT_SET, 0, [100, 41])] ∧
    runChunks cfgParen 0 4 [[40, 97], [98, 99, 100, 41]] =
      [(NEXT_CHUNK, TK_KEYWORD, -1, [40, 97, 98, 99]),
       (NEXT_MATCH, TK_EXPRESSION, 0, [100, 41]),
       (NEXT_END, TK_NOT_SET, 0, [100, 41])] ∧
    runChunks cfgParen 0 4 [[40, 97, 98, 99, 100, 41]] ≠
      runChunks cfgParen 0 4 [[40, 97], [98, 99, 100, 41]] := by
  refine ⟨by decide, by decide, by decide⟩

/-- Claim C4 (refuted, code bug): the three parsing flags are not
independently combinable (`PFLAG_ALLDELIMS` is assigned the same bit as
`PFLAG_IGSPACE`), and with the union flag set a byte in a configured
delimiter range (here `A` = 0x41) is *not* a delimiter — the code then
consults only the default set (byte 0x0A stays a delimiter) and never reads
the ranges, contradicting the flag's own documentation. -/
theorem alldelims_union_fails :
    PFLAG_ALLDELIMS = PFLAG_IGSPACE ∧
    handleDelims cfgRangeA SYN_DUMMY 65 PFLAG_ALLDELIMS = 0 ∧
    handleDelims cfgRangeA SYN_DUMMY 65 0 = 65 ∧
    handleDelims cfgRangeA SYN_DUMMY 10 PFLAG_ALLDELIMS = 10 := by
  refine ⟨rfl, by decide, by decide, by decide⟩

/-- Claim C2 counterexample: with the duplicate punctuation table
`{"=", "="}` both entries match the one-byte token `=` with equal length,
and the accepted id is 1 (the latest index), not 0 (the earliest) as the
claim states — `__handle_puncs` updates its best match on
`len >= longest_match_len`. -/
theorem punc_tie_earliest_fails :
    puncScan [[61], [61]] [61, 0, 0] 1 = (some 1, 1) ∧
    (runChunks cfgDupEq 0 8 [[61]]).head? =
      some (NEXT_MATCH, TK_PUNCS, 1, [61]) := by
  refine ⟨by decide, by decide⟩

/-- Claim C3 counterexample: for the documented scenario configuration and
input `if a=="x" ` the emitted stream never contains a `==` punctuation
token; the third token is the punctuation `=` (table id 2). -/
theorem scenario_expected_stream_fails :
    (runChunks cfgScenario PFLAG_INEXP 32
        [[105, 102, 32, 97, 61, 61, 34, 120, 34, 32]]).get? 2 =
      some (NEXT_MATCH, TK_PUNCS, 2, [61]) ∧
    ∀ r ∈ runChunks cfgScenario PFLAG_INEXP 32
        [[105, 102, 32, 97, 61, 61, 34, 120, 34, 32]],
      r.2.2.2 ≠ [61, 61] := by
  refine ⟨by decide, by decide⟩

/-- Claim C3 (amended): the scenario actually produces keyword `if` (id 0),
keyword `a` (unknown, id -1), punctuation `=` (id 2) twice — the first `=`
is matched as a suffix of `a=` and re-emitted via the recover state before
`==` can ever accumulate — then the expression with content `x`, then end
of input with no token. -/
theorem scenario_stream_actual :
    runChunks cfgScenario PFLAG_INEXP 32
        [[105, 102, 32, 97, 61, 61, 34, 120, 34, 32]] =
      [(NEXT_MATCH, TK_KEYWORD, 0, [105, 102]),
       (NEXT_MATCH, TK_KEYWORD, -1, [97]),
       (NEXT_MATCH, TK_PUNCS, 2, [61]),
       (NEXT_MATCH, TK_PUNCS, 2, [61]),
       (NEXT_MATCH, TK_EXPRESSION, 0, [120]),
       (NEXT_END, TK_NOT_SET, 0, [])] := by decide

/-- Claim C6 counterexample: with keywords `{"b", "a"}` and the single-byte
input `a` flushed by end of input, the token is typed keyword but its id is
left at its prior value 0 even though keyword resolution of the content `a`
yields table index 1 — the single-leftover-byte path of the flush never
calls `__handle_token_id`. -/
theorem eof_single_byte_id_fails :
    applyTokenId.kwFind cfgKwBA.keywords 0 [97] = some 1 ∧
    next_token_lazy cfgKwBA 0 false false [97]
        { initSlice with eof_lazy := true } (initToken 8) =
      (NEXT_END,
        { initSlice with eof_lazy := true, idx := 1 },
        { type := TK_KEYWORD, id := 0,
          cstr := [97, 0, 0, 0, 0, 0, 0, 0, 0, 0], len := 8, idx := 1 }) := by
  refine ⟨by decide, by decide⟩

/-- Claim C9 counterexample: the single configured punctuation is `" ="`
(space, equals), the token buffer capacity equals its length 2, and the
input is exactly that string with end of input flagged; the operation never
returns a punctuation match at all (the space byte is consumed as a
delimiter and discarded before the punctuation can accumulate), ending
instead with a leftover keyword `=`. -/
theorem boundary_capacity_fails :
    runChunks cfgSpacePunc 0 2 [[32, 61]] =
      [(NEXT_END, TK_KEYWORD, 0, [61])] ∧
    ∀ r ∈ runChunks cfgSpacePunc 0 2 [[32, 61]], r.1 ≠ NEXT_MATCH := by
  refine ⟨by decide, by decide⟩

/-- Helper: consuming any byte `p` while the cursor is in `SYN_ESCAPE` (and
the token buffer does not fill on this byte) never returns: the byte is
copied, the terminator is rewritten, the state is restored from
`prev_state`, the token type becomes `TK_EXPRESSION`, and nothing else
(id, last-match indices) changes. -/
theorem stepByte_escape (ml : Milexer) (flags p : Nat) (s : Slice) (t : Token)
    (hs : s.state = SYN_ESCAPE) (hfull : t.idx + 1 ≠ t.len) :
    stepByte ml flags p s t =
      .cont { s with idx := s.idx + 1, state := s.prev_state }
        { t with cstr := (t.cstr.set t.idx p).set (t.idx + 1) 0,
                 idx := t.idx + 1, type := TK_EXPRESSION } := by
  have h1 : handleDelims ml SYN_ESCAPE p flags = 0 := rfl
  have h2 : ∀ lei buf tidx tid,
      handleExpression ml SYN_ESCAPE lei buf tidx tid =
        (some tidx, buf.set tidx 0, lei, tid) := fun _ _ _ _ => rfl
  simp [stepByte, hs, h1, h2, chunkTail, ldState, stState, hfull]

/-- A slice with the bracket expression `[` already open. -/
def sOpenBr : Slice :=
  { eof_lazy := false, state := SYN_NO_DUMMY, prev_state := SYN_DUMMY,
    idx := 0, last_exp_idx := 0, last_punc_idx := 0 }

/-- A token buffer holding the open-bracket byte already consumed. -/
def tOpenBr : Token :=
  { type := TK_EXPRESSION, id := 0, cstr := [91, 0, 0, 0, 0, 0, 0, 0, 0, 0],
    len := 8, idx := 1 }

/-- A slice in the escape state, entered from inside an open expression. -/
def sEsc : Slice :=
  { eof_lazy := false, state := SYN_ESCAPE, prev_state := SYN_NO_DUMMY,
    idx := 2, last_exp_idx := 0, last_punc_idx := 0 }

/-- A token buffer holding `[` and the pending backslash. -/
def tEsc : Token :=
  { type := TK_EXPRESSION, id := 0,
    cstr := [91, 92, 0, 0, 0, 0, 0, 0, 0, 0], len := 8, idx := 2 }

/-- Claim C5 (confirmed): a byte consumed in the escape state undergoes no
delimiter, expression-marker, or punctuation interpretation — the step
only copies it and restores the saved previous state (`prev_state`); in
particular (second conjunct) with the `[`/`]` expression open, the input
`\]` leaves the expression open (state `SYN_NO_DUMMY`, no match returned)
and the `]` byte is kept as plain content, never closing the expression
and never classified as a delimiter or punctuation. -/
theorem escape_suppresses_one_byte :
    (∀ (ml : Milexer) (flags p : Nat) (s : Slice) (t : Token),
        s.state = SYN_ESCAPE → t.idx + 1 ≠ t.len →
        stepByte ml flags p s t =
          .cont { s with idx := s.idx + 1, state := s.prev_state }
            { t with cstr := (t.cstr.set t.idx p).set (t.idx + 1) 0,
                     idx := t.idx + 1, type := TK_EXPRESSION }) ∧
    next_token_lazy cfgBracket 0 false false [92, 93] sOpenBr tOpenBr =
      (NEXT_NEED_LOAD,
        { eof_lazy := false, state := SYN_NO_DUMMY,
          prev_state := SYN_NO_DUMMY, idx := 0,
          last_exp_idx := 0, last_punc_idx := 0 },
        { type := TK_EXPRESSION, id := 0,
          cstr := [91, 92, 93, 0, 0, 0, 0, 0, 0, 0], len := 8, idx := 3 }) := by
  refine ⟨fun ml flags p s t hs hf => stepByte_escape ml flags p s t hs hf,
    by decide⟩

/-- Witness for C5: the general escape step applied at the concrete escape
configuration (byte `]` = 93, state `SYN_ESCAPE` saved from
`SYN_NO_DUMMY`). -/
theorem escape_suppresses_one_byte_witness :
    stepByte cfgBracket 0 93 sEsc tEsc =
      .cont { eof_lazy := false, state := SYN_NO_DUMMY,
              prev_state := SYN_NO_DUMMY, idx := 3,
              last_exp_idx := 0, last_punc_idx := 0 }
        { type := TK_EXPRESSION, id := 0,
          cstr := [91, 92, 93, 0, 0, 0, 0, 0, 0, 0], len := 8, idx := 3 } := by
  exact escape_suppresses_one_byte.1 cfgBracket 0 93 sEsc tEsc rfl (by decide)

/-- Claim C10 (amended): any byte consumed in the escape state marks the
token's type `TK_EXPRESSION` even with no expression open, and
consequently (second conjunct) input `a\b` with keywords `{"z", "a\b"}`
and end of input flagged *on the consuming call itself* is flushed with
type `TK_EXPRESSION` — not keyword — and its id stays at the stale value
0, never resolved to the matching keyword index 1.  (When a
need-more-input boundary intervenes before the flush the consequence
fails; see the counterexample.) -/
theorem escape_sets_expression_type :
    (∀ (ml : Milexer) (flags p : Nat) (s : Slice) (t : Token),
        s.state = SYN_ESCAPE → t.idx + 1 ≠ t.len →
        ∃ s' t', stepByte ml flags p s t = .cont s' t' ∧
          t'.type = TK_EXPRESSION) ∧
    next_token_lazy cfgEscKw 0 false false [97, 92, 98]
        { initSlice with eof_lazy := true } (initToken 8) =
      (NEXT_END, { initSlice with eof_lazy := true, idx := 3 },
        { type := TK_EXPRESSION, id := 0,
          cstr := [97, 92, 98, 0, 0, 0, 0, 0, 0, 0], len := 8, idx := 3 }) := by
  refine ⟨fun ml flags p s t hs hf =>
    ⟨_, _, stepByte_escape ml flags p s t hs hf, rfl⟩, by decide⟩

/-- A slice in the escape state entered from `SYN_DUMMY` (no open
expression). -/
def sEscDummy : Slice :=
  { eof_lazy := true, state := SYN_ESCAPE, prev_state := SYN_DUMMY,
    idx := 2, last_exp_idx := 0, last_punc_idx := 0 }

/-- A token buffer holding `a` and the pending backslash. -/
def tEscDummy : Token :=
  { type := TK_NOT_SET, id := 0,
    cstr := [97, 92, 0, 0, 0, 0, 0, 0, 0, 0], len := 8, idx := 2 }

/-- Claim C10 counterexample: when the escaped byte is consumed in one
call and end of input is only discovered by a later call, the later call's
`res->type = TK_NOT_SET` reset erases the expression type, and the token
`a\b` is flushed as a *keyword* with its keyword-table id resolved (to 1)
— against the claim that it is reported as an expression with its id never
resolved. -/
theorem escape_flush_keyword_after_reload :
    runChunks cfgEscKw 0 8 [[97, 92, 98]] =
      [(NEXT_END, TK_KEYWORD, 1, [97, 92, 98])] := by decide

/-- Witness for C10: the escape step at byte `b` (98) with no expression
open still yields a continuation typed `TK_EXPRESSION`. -/
theorem escape_sets_expression_type_witness :
    ∃ s' t', stepByte cfgEscKw 0 98 sEscDummy tEscDummy = .cont s' t' ∧
      t'.type = TK_EXPRESSION := by
  exact escape_sets_expression_type.1 cfgEscKw 0 98 sEscDummy tEscDummy rfl
    (by decide)

/-- Helper: the chunk-detection tail never returns the fatal status. -/
theorem chunkTail_no_err (s : Slice) (t : Token) (st : MlStatus) (s' : Slice)
    (t' : Token) (h : chunkTail s t = .emit st s' t') : st ≠ NEXT_ERR := by
  intro hc
  subst hc
  unfold chunkTail at h
  repeat' split at h
  all_goals simp_all

set_option maxHeartbeats 1000000 in
/-- Helper: a loop iteration never returns the fatal status. -/
theorem stepByte_no_err (ml : Milexer) (flags p : Nat) (s : Slice) (t : Token)
    (st : MlStatus) (s' : Slice) (t' : Token)
    (h : stepByte ml flags p s t = .emit st s' t') : st ≠ NEXT_ERR := by
  intro hc
  subst hc
  simp only [stepByte] at h
  repeat' split at h
  all_goals
    first
      | exact chunkTail_no_err _ _ _ _ _ h rfl
      | simp_all

/-- Helper: the consuming loop never returns the fatal status. -/
theorem tokLoop_no_err (ml : Milexer) (flags : Nat) :
    ∀ (rem : List Nat) (s : Slice) (t : Token),
      (tokLoop ml flags rem s t).1 ≠ NEXT_ERR := by
  intro rem
  induction rem with
  | nil =>
      intro s t
      unfold tokLoop eofTail
      repeat' split
      all_goals simp
  | cons p rest ih =>
      intro s t
      rw [tokLoop]
      cases hsb : stepByte ml flags p s t with
      | emit st sx tx => simpa using stepByte_no_err ml flags p s t st sx tx hsb
      | cont sx tx => simpa using ih sx tx

/-- Helper: the post-recover body never returns the fatal status. -/
theorem mainBody_no_err (ml : Milexer) (flags : Nat) (input : List Nat)
    (s : Slice) (t : Token) :
    (next_token_lazy.mainBody ml flags input s t).1 ≠ NEXT_ERR := by
  unfold next_token_lazy.mainBody
  repeat' split
  all_goals simp [tokLoop_no_err]

/-- Claim C7 (confirmed): a call returns the distinct fatal status
`NEXT_ERR` exactly when, at entry, the token buffer is null, its capacity
is zero (it is a `size_t`, so "or negative" collapses to zero), or the
token buffer aliases the input chunk buffer; and in that case the call
returns the slice and token entirely unchanged. -/
theorem fatal_misuse_iff_and_noop (ml : Milexer) (flags : Nat)
    (cstrNull aliased : Bool) (input : List Nat) (s : Slice) (t : Token) :
    ((next_token_lazy ml flags cstrNull aliased input s t).1 = NEXT_ERR ↔
      (cstrNull = true ∨ t.len = 0 ∨ aliased = true)) ∧
    ((cstrNull = true ∨ t.len = 0 ∨ aliased = true) →
      next_token_lazy ml flags cstrNull aliased input s t = (NEXT_ERR, s, t)) := by
  by_cases hc : cstrNull = true ∨ t.len = 0 ∨ aliased = true
  · refine ⟨⟨fun _ => hc, fun _ => ?_⟩, fun _ => ?_⟩ <;>
      simp [next_token_lazy, hc]
  · refine ⟨⟨fun hret => absurd ?_ hc, fun h => absurd h hc⟩,
      fun h => absurd h hc⟩
    exfalso
    unfold next_token_lazy at hret
    rw [if_neg hc] at hret
    repeat' split at hret
    all_goals
      first
        | exact mainBody_no_err ml flags input _ _ hret
        | simp at hret

/-- Witness for C7: a null token buffer at a concrete configuration is
rejected with `NEXT_ERR` and no mutation. -/
theorem fatal_misuse_iff_and_noop_witness :
    next_token_lazy cfgParen 0 true false [1, 2] initSlice (initToken 4) =
      (NEXT_ERR, initSlice, initToken 4) :=
  (fatal_misuse_iff_and_noop cfgParen 0 true false [1, 2] initSlice
    (initToken 4)).2 (Or.inl rfl)

/-- Helper: writing past a kept head shifts the write offset. -/
theorem writeBytes_cons_shift (x : Nat) :
    ∀ (src l : List Nat) (off : Nat),
      writeBytes (x :: l) (off + 1) src = x :: writeBytes l off src := by
  intro src
  induction src with
  | nil => intro l off; rfl
  | cons c rest ih =>
      intro l off
      show writeBytes ((x :: l).set (off + 1) c) (off + 2) rest =
        x :: writeBytes (l.set off c) (off + 1) rest
      rw [show (x :: l).set (off + 1) c = x :: l.set off c from rfl]
      exact ih (l.set off c) (off + 1)

/-- Helper: writing `xs ++ [0]` at offset 0 into a large enough buffer
makes its C-string value exactly `xs` (for NUL-free `xs`). -/
theorem cStrOf_writeBytes_zero :
    ∀ (xs buf : List Nat), xs.length + 1 ≤ buf.length →
      (∀ b ∈ xs, b ≠ 0) →
      cStrOf (writeBytes buf 0 (xs ++ [0])) = xs := by
  intro xs
  induction xs with
  | nil =>
      intro buf hl _
      match buf, hl with
      | b :: bs, _ =>
          show cStrOf (writeBytes ((b :: bs).set 0 0) 1 []) = []
          rfl
  | cons a as ih =>
      intro buf hl hnz
      match buf, hl with
      | b :: bs, hl =>
          show cStrOf (writeBytes ((b :: bs).set 0 a) 1 (as ++ [0])) = a :: as
          rw [show (b :: bs).set 0 a = a :: bs from rfl]
          rw [writeBytes_cons_shift]
          have ha : a ≠ 0 := hnz a (by simp)
          have : cStrOf (writeBytes bs 0 (as ++ [0])) = as :=
            ih bs (by simpa using hl) (fun b hb => hnz b (by simp [hb]))
          simp [cStrOf, List.takeWhile_cons, ha] at this ⊢
          exact this

/-- Claim C8 (confirmed): a call beginning in the punctuation-recover state
returns `NEXT_MATCH` with token type `TK_PUNCS`, id equal to the remembered
last-matched punctuation index, and content equal to that punctuation
string (null-terminated); the slice is unchanged except that `state` is
restored from `prev_state` — in particular the input read index `idx` is
not advanced and no input byte is consumed. -/
theorem punc_recover_reemits (ml : Milexer) (flags : Nat) (input : List Nat)
    (s : Slice) (t : Token)
    (hs : s.state = SYN_PUNC__) (hlen : t.len ≠ 0)
    (hcap : (ml.puncs.getD s.last_punc_idx.toNat []).length + 1 ≤ t.cstr.length)
    (hnz : ∀ b ∈ ml.puncs.getD s.last_punc_idx.toNat [], b ≠ 0) :
    next_token_lazy ml flags false false input s t =
      (NEXT_MATCH, { s with state := s.prev_state },
        { t with cstr := writeBytes t.cstr 0
                   ((ml.puncs.getD s.last_punc_idx.toNat []) ++ [0]),
                 type := TK_PUNCS, id := s.last_punc_idx }) ∧
    cStrOf (writeBytes t.cstr 0
        ((ml.puncs.getD s.last_punc_idx.toNat []) ++ [0])) =
      ml.puncs.getD s.last_punc_idx.toNat [] := by
  constructor
  · unfold next_token_lazy
    rw [if_neg (by simp [hlen])]
    rw [if_neg (by simp [hs])]
    rw [if_pos hs]
    rfl
  · exact cStrOf_writeBytes_zero _ t.cstr hcap hnz

/-- A slice parked in the punctuation-recover state with remembered
punctuation index 2 (the `=` entry of the scenario configuration). -/
def sPuncRec : Slice :=
  { eof_lazy := false, state := SYN_PUNC__, prev_state := SYN_DUMMY,
    idx := 5, last_exp_idx := 0, last_punc_idx := 2 }

/-- Witness for C8: re-emission of the remembered `=` punctuation at a
concrete recover state, leaving the read index at 5. -/
theorem punc_recover_reemits_witness :
    next_token_lazy cfgScenario 0 false false [1, 2, 3, 4, 5, 6] sPuncRec
        (initToken 8) =
      (NEXT_MATCH,
        { eof_lazy := false, state := SYN_DUMMY, prev_state := SYN_DUMMY,
          idx := 5, last_exp_idx := 0, last_punc_idx := 2 },
        { type := TK_PUNCS, id := 2,
          cstr := [61, 0, 0, 0, 0, 0, 0, 0, 0, 0], len := 8, idx := 0 }) ∧
    cStrOf [61, 0, 0, 0, 0, 0, 0, 0, 0, 0] = [61] := by
  exact punc_recover_reemits cfgScenario 0 [1, 2, 3, 4, 5, 6] sPuncRec
    (initToken 8) rfl (by decide) (by decide) (by decide)

/-- Claim C6 (amended): with end of input flagged, input `abc` yields
exactly one keyword token `abc` with its keyword-table id resolved (here 1),
not a need-more-input status; but a single leftover byte is *not* treated
the same as a longer keyword: it is typed keyword only when its signed-char
value exceeds 0x20 and its keyword-table id is never resolved (left at its
prior value, here 0, although resolution of content `a` would give 1); a
single byte that is not greater than 0x20 as signed `char` (in particular
any byte ≥ 0x80) and an empty remainder yield the end status with no
token. -/
theorem eof_flush_behavior :
    next_token_lazy cfgKwABC 0 false false [97, 98, 99]
        { initSlice with eof_lazy := true } (initToken 8) =
      (NEXT_END, { initSlice with eof_lazy := true, idx := 3 },
        { type := TK_KEYWORD, id := 1,
          cstr := [97, 98, 99, 0, 0, 0, 0, 0, 0, 0], len := 8, idx := 3 }) ∧
    (∀ b : Fin 128, 33 ≤ b.val → b.val ≠ 92 →
      next_token_lazy cfgKwBA 0 false false [b.val]
          { initSlice with eof_lazy := true } (initToken 8) =
        (NEXT_END, { initSlice with eof_lazy := true, idx := 1 },
          { type := TK_KEYWORD, id := 0,
            cstr := [b.val, 0, 0, 0, 0, 0, 0, 0, 0, 0], len := 8, idx := 1 })) ∧
    (∀ b : Fin 256, 128 ≤ b.val →
      next_token_lazy cfgKwBA 0 false false [b.val]
          { initSlice with eof_lazy := true } (initToken 8) =
        (NEXT_END, { initSlice with eof_lazy := true, idx := 1 },
          { type := TK_NOT_SET, id := 0,
            cstr := [b.val, 0, 0, 0, 0, 0, 0, 0, 0, 0], len := 8, idx := 1 })) ∧
    next_token_lazy cfgKwBA 0 false false []
        { initSlice with eof_lazy := true } (initToken 8) =
      (NEXT_END, { initSlice with eof_lazy := true }, initToken 8) := by
  refine ⟨by decide, ?_, ?_, by decide⟩ <;>
    · set_option maxRecDepth 4000 in decide

/-- Witness for C6: the single-byte flush clause applied at byte `a`
(97). -/
theorem eof_flush_behavior_witness :
    next_token_lazy cfgKwBA 0 false false [97]
        { initSlice with eof_lazy := true } (initToken 8) =
      (NEXT_END, { initSlice with eof_lazy := true, idx := 1 },
        { type := TK_KEYWORD, id := 0,
          cstr := [97, 0, 0, 0, 0, 0, 0, 0, 0, 0], len := 8, idx := 1 }) :=
  eof_flush_behavior.2.1 ⟨97, by decide⟩ (by decide) (by decide)

/-- Helper: full characterization of the punctuation scanning fold with a
generalized accumulator `(bi, bl)` (best index so far, best length so far)
and starting table index `i0`: the result length dominates the initial one,
the result is either the initial accumulator or a genuine suffix match,
every match is dominated (strictly shorter, or of equal length and at an
index not above the winner), and a `some` accumulator index never
degrades. -/
theorem puncScanAux_spec (buf : List Nat) (tidx : Nat) :
    ∀ (pcs : List (List Nat)) (i0 : Nat) (bi : Option Nat) (bl : Nat)
      (ri : Option Nat) (rl : Nat),
      (∀ b, bi = some b → b < i0) →
      puncScanAux buf tidx pcs i0 (bi, bl) = (ri, rl) →
      bl ≤ rl ∧
      ((ri = bi ∧ rl = bl) ∨
        ∃ k pc, pcs.get? k = some pc ∧ ri = some (i0 + k) ∧ pc.length = rl ∧
          pc.length ≤ tidx ∧ sliceEq buf (tidx - pc.length) pc = true) ∧
      (∀ k pc, pcs.get? k = some pc → pc.length ≤ tidx →
        sliceEq buf (tidx - pc.length) pc = true →
        pc.length < rl ∨ (pc.length = rl ∧ ∃ i, ri = some i ∧ i0 + k ≤ i)) ∧
      (∀ b, bi = some b → ∃ i, ri = some i ∧ b ≤ i) := by
  intro pcs
  induction pcs with
  | nil =>
      intro i0 bi bl ri rl hpre h
      rw [puncScanAux] at h
      obtain ⟨h1, h2⟩ := Prod.mk.injEq .. ▸ h
      subst h1; subst h2
      refine ⟨le_refl _, Or.inl ⟨rfl, rfl⟩, ?_, ?_⟩
      · intro k pc hget _ _
        simp at hget
      · intro b hb
        exact ⟨b, hb, le_refl b⟩
  | cons pc0 rest ih =>
      intro i0 bi bl ri rl hpre h
      rw [puncScanAux] at h
      by_cases hA : tidx < pc0.length
      · rw [if_pos hA] at h
        obtain ⟨ih1, ih2, ih3, ih4⟩ :=
          ih (i0 + 1) bi bl ri rl (fun b hb => Nat.lt_succ_of_lt (hpre b hb)) h
        refine ⟨ih1, ?_, ?_, ih4⟩
        · rcases ih2 with hacc | ⟨k, pc, hget, hri, hlen, hle, hsl⟩
          · exact Or.inl hacc
          · exact Or.inr ⟨k + 1, pc, by simpa using hget,
              by rw [hri]; congr 1; omega, hlen, hle, hsl⟩
        · intro k pc hget hle hsl
          match k, hget with
          | 0, hget =>
              obtain rfl : pc0 = pc := by simpa using hget
              omega
          | k + 1, hget =>
              rcases ih3 k pc (by simpa using hget) hle hsl with hlt | ⟨heq, i, hri, hge⟩
              · exact Or.inl hlt
              · exact Or.inr ⟨heq, i, hri, by omega⟩
      · rw [if_neg hA] at h
        by_cases hE : sliceEq buf (tidx - pc0.length) pc0 = true
        · rw [if_pos hE] at h
          by_cases hB : bl ≤ pc0.length
          · rw [if_pos hB] at h
            obtain ⟨ih1, ih2, ih3, ih4⟩ :=
              ih (i0 + 1) (some i0) pc0.length ri rl
                (fun b hb => by injection hb with hb; omega) h
            refine ⟨le_trans hB ih1, ?_, ?_, ?_⟩
            · rcases ih2 with ⟨hri, hrl⟩ | ⟨k, pc, hget, hri, hlen, hle, hsl⟩
              · exact Or.inr ⟨0, pc0, rfl, by simp [hri],
                  by omega, Nat.le_of_not_lt hA, hE⟩
              · exact Or.inr ⟨k + 1, pc, by simpa using hget,
                  by rw [hri]; congr 1; omega, hlen, hle, hsl⟩
            · intro k pc hget hle hsl
              match k, hget with
              | 0, hget =>
                  obtain rfl : pc0 = pc := by simpa using hget
                  rcases Nat.lt_or_ge pc0.length rl with hlt | hge
                  · exact Or.inl hlt
                  · obtain ⟨i, hri, hi⟩ := ih4 i0 rfl
                    exact Or.inr ⟨by omega, i, hri, by omega⟩
              | k + 1, hget =>
                  rcases ih3 k pc (by simpa using hget) hle hsl with
                    hlt | ⟨heq, i, hri, hge⟩
                  · exact Or.inl hlt
                  · exact Or.inr ⟨heq, i, hri, by omega⟩
            · intro b hb
              have hblt : b < i0 := hpre b hb
              obtain ⟨i, hri, hi⟩ := ih4 i0 rfl
              exact ⟨i, hri, by omega⟩
          · rw [if_neg hB] at h
            obtain ⟨ih1, ih2, ih3, ih4⟩ :=
              ih (i0 + 1) bi bl ri rl (fun b hb => Nat.lt_succ_of_lt (hpre b hb)) h
            refine ⟨ih1, ?_, ?_, ih4⟩
            · rcases ih2 with hacc | ⟨k, pc, hget, hri, hlen, hle, hsl⟩
              · exact Or.inl hacc
              · exact Or.inr ⟨k + 1, pc, by simpa using hget,
                  by rw [hri]; congr 1; omega, hlen, hle, hsl⟩
            · intro k pc hget hle hsl
              match k, hget with
              | 0, hget =>
                  obtain rfl : pc0 = pc := by simpa using hget
                  omega
              | k + 1, hget =>
                  rcases ih3 k pc (by simpa using hget) hle hsl with
                    hlt | ⟨heq, i, hri, hge⟩
                  · exact Or.inl hlt
                  · exact Or.inr ⟨heq, i, hri, by omega⟩
        · rw [if_neg hE] at h
          obtain ⟨ih1, ih2, ih3, ih4⟩ :=
            ih (i0 + 1) bi bl ri rl (fun b hb => Nat.lt_succ_of_lt (hpre b hb)) h
          refine ⟨ih1, ?_, ?_, ih4⟩
          · rcases ih2 with hacc | ⟨k, pc, hget, hri, hlen, hle, hsl⟩
            · exact Or.inl hacc
            · exact Or.inr ⟨k + 1, pc, by simpa using hget,
                by rw [hri]; congr 1; omega, hlen, hle, hsl⟩
          · intro k pc hget hle hsl
            match k, hget with
            | 0, hget =>
                obtain rfl : pc0 = pc := by simpa using hget
                exact absurd hsl hE
            | k + 1, hget =>
                rcases ih3 k pc (by simpa using hget) hle hsl with
                  hlt | ⟨heq, i, hri, hge⟩
                · exact Or.inl hlt
                · exact Or.inr ⟨heq, i, hri, by omega⟩

/-- Claim C2 (amended): at each consumed byte, among all configured
punctuation strings equal to a suffix of the accumulated token the longest
one is accepted, but an equal-length tie (only possible between duplicate
table entries) is won by the *latest* (largest) table index, not the
earliest — `__handle_puncs` updates its best candidate on
`len >= longest_match_len`; and whenever any punctuation matches, the scan
does accept one. -/
theorem punc_longest_latest_tie (puncs : List (List Nat)) (buf : List Nat)
    (tidx : Nat) :
    (∀ i L, puncScan puncs buf tidx = (some i, L) →
      (∃ pc, puncs.get? i = some pc ∧ pc.length = L ∧ L ≤ tidx ∧
        sliceEq buf (tidx - L) pc = true) ∧
      (∀ j pc, puncs.get? j = some pc → pc.length ≤ tidx →
        sliceEq buf (tidx - pc.length) pc = true →
        pc.length < L ∨ (pc.length = L ∧ j ≤ i))) ∧
    (∀ j pc, puncs.get? j = some pc → pc.length ≤ tidx →
      sliceEq buf (tidx - pc.length) pc = true →
      (puncScan puncs buf tidx).1 ≠ none) := by
  constructor
  · intro i L hscan
    obtain ⟨_, h2, h3, _⟩ :=
      puncScanAux_spec buf tidx puncs 0 none 0 (some i) L (by simp) hscan
    constructor
    · rcases h2 with ⟨hri, _⟩ | ⟨k, pc, hget, hri, hlen, hle, hsl⟩
      · simp at hri
      · have hik : i = k := by simpa using hri
        subst hik
        exact ⟨pc, by simpa using hget, hlen, hlen ▸ hle, hlen ▸ hsl⟩
    · intro j pc hget hle hsl
      rcases h3 j pc hget hle hsl with hlt | ⟨heq, i2, hri, hge⟩
      · exact Or.inl hlt
      · have hii : i = i2 := by simpa using hri
        subst hii
        exact Or.inr ⟨heq, by omega⟩
  · intro j pc hget hle hsl hnone
    rcases hres : puncScan puncs buf tidx with ⟨ri, rl⟩
    rw [hres] at hnone
    simp at hnone
    subst hnone
    obtain ⟨_, h2, h3, _⟩ :=
      puncScanAux_spec buf tidx puncs 0 none 0 none rl (by simp) hres
    rcases h3 j pc hget hle hsl with hlt | ⟨_, i, hri, _⟩
    · rcases h2 with ⟨_, hrl⟩ | ⟨k, pc2, _, hri, _, _, _⟩
      · omega
      · simp at hri
    · simp at hri

/-- Witness for C2 (amended): the characterization applied at the duplicate
table `{"=", "="}`, the buffer holding one `=` byte: index 1 wins the tie,
and index 0 is dominated with `0 ≤ 1`. -/
theorem punc_longest_latest_tie_witness :
    (∃ pc, [[61], [61]].get? 1 = some pc ∧ pc.length = 1 ∧ 1 ≤ 1 ∧
      sliceEq [61, 0, 0] (1 - 1) pc = true) ∧
    (∀ j pc, [[61], [61]].get? j = some pc → pc.length ≤ 1 →
      sliceEq [61, 0, 0] (1 - pc.length) pc = true →
      pc.length < 1 ∨ (pc.length = 1 ∧ j ≤ 1)) :=
  (punc_longest_latest_tie [[61], [61]] [61, 0, 0] 1).1 1 1 (by decide)

/-- Helper: setting the element right after a prefix. -/
theorem set_at_len :
    ∀ (xs : List Nat) (y a : Nat) (ys : List Nat),
      (xs ++ y :: ys).set xs.length a = xs ++ a :: ys := by
  intro xs
  induction xs with
  | nil => intro y a ys; rfl
  | cons x xt ih =>
      intro y a ys
      show x :: (xt ++ y :: ys).set xt.length a = x :: (xt ++ a :: ys)
      exact congrArg (x :: ·) (ih y a ys)

/-- Helper: the C-string value of a NUL-free list followed by a NUL. -/
theorem cStrOf_append_zero :
    ∀ (xs rest : List Nat), (∀ b ∈ xs, b ≠ 0) →
      cStrOf (xs ++ 0 :: rest) = xs := by
  intro xs
  induction xs with
  | nil => intro rest _; simp [cStrOf]
  | cons a as ih =>
      intro rest h
      have ha : a ≠ 0 := h a (by simp)
      have := ih rest (fun b hb => h b (by simp [hb]))
      simp [cStrOf, ha] at this ⊢
      exact this

/-- Helper: a byte that is no delimiter, no backslash, opens no expression
and completes no punctuation under the single-punctuation configuration is
simply accumulated: state and classification stay untouched. -/
theorem stepByte_plain (P : List Nat) (p : Nat) (s : Slice) (t : Token)
    (hstate : s.state = SYN_DUMMY) (hp : 33 ≤ p) (hbs : p ≠ 92)
    (hscan : puncScan [P] ((t.cstr.set t.idx p).set (t.idx + 1) 0) (t.idx + 1) =
      (none, 0))
    (hfull : t.idx + 1 ≠ t.len) :
    stepByte (singlePuncCfg P) 0 p s t =
      .cont { s with idx := s.idx + 1 }
        { t with cstr := (t.cstr.set t.idx p).set (t.idx + 1) 0,
                 idx := t.idx + 1 } := by
  have hd : handleDelims (singlePuncCfg P) SYN_DUMMY p 0 = 0 := by
    simp [handleDelims, singlePuncCfg]
    omega
  have he : ∀ (lei : Int) (buf : List Nat) (tidx : Nat) (tid : Int),
      handleExpression (singlePuncCfg P) SYN_DUMMY lei buf tidx tid =
        (none, buf.set tidx 0, lei, tid) := fun _ _ _ _ => rfl
  have hpn : handlePuncs (singlePuncCfg P) SYN_DUMMY
      ((t.cstr.set t.idx p).set (t.idx + 1) 0) (t.idx + 1) = (none, 0) := by
    show puncScan (singlePuncCfg P).puncs _ _ = (none, 0)
    exact hscan
  simp [stepByte, hstate, hd, he, hpn, hbs, chunkTail, hfull]

/-- Helper: the byte that completes the single configured punctuation as
the whole accumulated token emits the punctuation match immediately. -/
theorem stepByte_punc_full (P : List Nat) (p : Nat) (s : Slice) (t : Token)
    (hstate : s.state = SYN_DUMMY) (hp : 33 ≤ p) (hbs : p ≠ 92)
    (hscan : puncScan [P] ((t.cstr.set t.idx p).set (t.idx + 1) 0) (t.idx + 1) =
      (some 0, t.idx + 1)) :
    stepByte (singlePuncCfg P) 0 p s t =
      .emit NEXT_MATCH
        { s with idx := s.idx + 1, last_punc_idx := 0,
                 prev_state := s.state, state := SYN_DUMMY }
        { t with type := TK_PUNCS, id := 0,
                 cstr := ((t.cstr.set t.idx p).set (t.idx + 1) 0).set (t.idx + 1) 0,
                 idx := 0 } := by
  have hd : handleDelims (singlePuncCfg P) SYN_DUMMY p 0 = 0 := by
    simp [handleDelims, singlePuncCfg]
    omega
  have he : ∀ (lei : Int) (buf : List Nat) (tidx : Nat) (tid : Int),
      handleExpression (singlePuncCfg P) SYN_DUMMY lei buf tidx tid =
        (none, buf.set tidx 0, lei, tid) := fun _ _ _ _ => rfl
  have hpn : handlePuncs (singlePuncCfg P) SYN_DUMMY
      ((t.cstr.set t.idx p).set (t.idx + 1) 0) (t.idx + 1) =
        (some 0, t.idx + 1) := by
    show puncScan (singlePuncCfg P).puncs _ _ = _
    exact hscan
  simp [stepByte, hstate, hd, he, hpn, hbs, stState]

/-- Helper: the consuming loop over the remaining bytes `suf` of the single
configured punctuation `P` (the prefix `pre` already accumulated) runs to
the last byte and emits the punctuation match there. -/
theorem c9_loop (P : List Nat) (hP : ∀ b ∈ P, 33 ≤ b ∧ b ≠ 92) (tid0 : Int)
    (e : Bool) :
    ∀ (suf pre : List Nat), P = pre ++ suf → suf ≠ [] →
      tokLoop (singlePuncCfg P) 0 suf
        { eof_lazy := e, state := SYN_DUMMY, prev_state := SYN_DUMMY,
          idx := pre.length, last_exp_idx := 0, last_punc_idx := 0 }
        { type := TK_NOT_SET, id := tid0,
          cstr := pre ++ List.replicate (P.length + 2 - pre.length) 0,
          len := P.length, idx := pre.length } =
      (NEXT_MATCH,
        { eof_lazy := e, state := SYN_DUMMY, prev_state := SYN_DUMMY,
          idx := P.length, last_exp_idx := 0, last_punc_idx := 0 },
        { type := TK_PUNCS, id := 0,
          cstr := P ++ [0, 0], len := P.length, idx := 0 }) := by
  intro suf
  induction suf with
  | nil => intro pre _ hne; exact absurd rfl hne
  | cons a rest ih =>
      intro pre hPeq hne
      have ha : 33 ≤ a ∧ a ≠ 92 := hP a (by rw [hPeq]; simp)
      have hpre_lt : pre.length < P.length := by rw [hPeq]; simp
      have hrep1 : List.replicate (P.length + 2 - pre.length) 0 =
          (0 : Nat) :: List.replicate (P.length + 1 - pre.length) 0 := by
        rw [show P.length + 2 - pre.length = (P.length + 1 - pre.length) + 1 by
          omega]
        rfl
      have hrep2 : List.replicate (P.length + 1 - pre.length) 0 =
          (0 : Nat) :: List.replicate (P.length - pre.length) 0 := by
        rw [show P.length + 1 - pre.length = (P.length - pre.length) + 1 by
          omega]
        rfl
      have hset1 :
          (pre ++ List.replicate (P.length + 2 - pre.length) 0).set pre.length a =
            pre ++ a :: List.replicate (P.length + 1 - pre.length) 0 := by
        rw [hrep1]; exact set_at_len pre 0 a _
      have hset2 :
          (pre ++ a :: List.replicate (P.length + 1 - pre.length) 0).set
              (pre.length + 1) 0 =
            pre ++ a :: List.replicate (P.length + 1 - pre.length) 0 := by
        rw [hrep2]
        have := set_at_len (pre ++ [a]) 0 0 (List.replicate (P.length - pre.length) 0)
        simpa using this
      cases rest with
      | nil =>
          -- last byte: the full punctuation is in the buffer now
          have hPa : P = pre ++ [a] := hPeq
          have hlen2 : P.length = pre.length + 1 := by rw [hPa]; simp
          have hfin :
              pre ++ a :: List.replicate (P.length + 1 - pre.length) 0 =
                P ++ [0, 0] := by
            rw [show P.length + 1 - pre.length = 2 from by omega]
            rw [hPa]
            simp
          have hps : puncScan [P] (P ++ [0, 0]) P.length = (some 0, P.length) := by
            rw [puncScan, puncScanAux, if_neg (by omega)]
            have : sliceEq (P ++ [0, 0]) (P.length - P.length) P = true := by
              simp [sliceEq, List.take_left]
            rw [if_pos this, if_pos (Nat.zero_le _)]
            rfl
          have hsetP : (P ++ [0, 0]).set P.length 0 = P ++ [0, 0] := by
            have := set_at_len P 0 0 [0]
            simpa using this
          have hscan2 : puncScan [P]
              (((pre ++ List.replicate (P.length + 2 - pre.length) 0).set
                  pre.length a).set (pre.length + 1) 0)
              (pre.length + 1) = (some 0, pre.length + 1) := by
            rw [hset1, hset2, hfin]
            rw [show pre.length + 1 = P.length from by omega]
            exact hps
          rw [tokLoop]
          rw [stepByte_punc_full P a _ _ rfl ha.1 ha.2 hscan2]
          simp only [hset1, hset2, hfin, hsetP]
          simp [hlen2]
      | cons b rest2 =>
          rw [tokLoop]
          have hlenP : pre.length + 1 < P.length := by
            rw [hPeq]; simp
          have hfull : pre.length + 1 ≠ P.length := by omega
          have hps : puncScan [P]
              (((pre ++ List.replicate (P.length + 2 - pre.length) 0).set
                  pre.length a).set (pre.length + 1) 0)
              (pre.length + 1) = (none, 0) := by
            rw [puncScan, puncScanAux, if_pos (by omega)]
            rfl
          have hstep := stepByte_plain P a
            { eof_lazy := e, state := SYN_DUMMY, prev_state := SYN_DUMMY,
              idx := pre.length, last_exp_idx := 0, last_punc_idx := 0 }
            { type := TK_NOT_SET, id := tid0,
              cstr := pre ++ List.replicate (P.length + 2 - pre.length) 0,
              len := P.length, idx := pre.length }
            rfl ha.1 ha.2 hps hfull
          rw [hstep]
          have hbufeq :
              ((pre ++ List.replicate (P.length + 2 - pre.length) 0).set
                  pre.length a).set (pre.length + 1) 0 =
                (pre ++ [a]) ++
                  List.replicate (P.length + 2 - (pre.length + 1)) 0 := by
            rw [hset1, hset2]
            rw [show P.length + 2 - (pre.length + 1) =
              P.length + 1 - pre.length from by omega]
            simp
          have := ih (pre ++ [a]) (by rw [hPeq]; simp) (by simp)
          rw [show (pre ++ [a]).length = pre.length + 1 from by simp] at this
          rw [← hbufeq] at this
          exact this

/-- Claim C9 (amended): when the single configured punctuation `P` (no
other punctuation that could pre-empt a prefix, no expressions, and no
delimiter or backslash bytes inside `P`) has the token buffer capacity
equal to its length and the input is exactly `P`, the call returns the
punctuation match `NEXT_MATCH` (type `TK_PUNCS`, id 0, content `P`) on
consuming the last byte — not a chunk-continuation status: the
punctuation check precedes the buffer-full check within the same byte. -/
theorem boundary_capacity_single_punc (P : List Nat) (hne : P ≠ [])
    (hP : ∀ b ∈ P, 33 ≤ b ∧ b ≠ 92) :
    next_token_lazy (singlePuncCfg P) 0 false false P
        { initSlice with eof_lazy := true } (initToken P.length) =
      (NEXT_MATCH,
        { eof_lazy := true, state := SYN_DUMMY, prev_state := SYN_DUMMY,
          idx := P.length, last_exp_idx := 0, last_punc_idx := 0 },
        { type := TK_PUNCS, id := 0, cstr := P ++ [0, 0],
          len := P.length, idx := 0 }) ∧
    cStrOf (P ++ [0, 0]) = P := by
  constructor
  · have hl : P.length ≠ 0 := fun h => hne (List.length_eq_zero.mp h)
    unfold next_token_lazy next_token_lazy.mainBody
    rw [if_neg (by simp [initToken, hl])]
    rw [if_neg (by simp [initSlice])]
    rw [if_neg (by simp [initSlice])]
    rw [if_neg (by simp [initSlice])]
    have := c9_loop P hP 0 true P [] rfl hne
    simpa [initSlice, initToken] using this
  · exact cStrOf_append_zero P [0] (fun b hb => by have := (hP b hb).1; omega)

/-- Witness for C9 (amended): the single punctuation `==` with buffer
capacity 2 and input `==` matches on the second byte. -/
theorem boundary_capacity_single_punc_witness :
    next_token_lazy (singlePuncCfg [61, 61]) 0 false false [61, 61]
        { initSlice with eof_lazy := true } (initToken 2) =
      (NEXT_MATCH,
        { eof_lazy := true, state := SYN_DUMMY, prev_state := SYN_DUMMY,
          idx := 2, last_exp_idx := 0, last_punc_idx := 0 },
        { type := TK_PUNCS, id := 0, cstr := [61, 61, 0, 0],
          len := 2, idx := 0 }) ∧
    cStrOf [61, 61, 0, 0] = [61, 61] :=
  boundary_capacity_single_punc [61, 61] (by decide) (by decide)

end Mlex
